import Mathlib

/-!
Verification development for the `fel` stacked-diff submission tool.

Shallow embedding of the data model and operations of the Rust sources:
`metadata.rs`, `commit.rs`, `stack.rs`, `pr.rs`, `push.rs`, `render.rs`
and `submit.rs`.  Rust `u64`/`u32` counters are modelled as `Nat` (no
claim touches an overflow boundary), `git2::Oid` values as their hex
`String` rendering, and fallible operations as `Except String`.
-/

namespace Fel

/-! ### Metadata (`metadata.rs`)

`Metadata` is the per-commit note payload.  All six fields are optional,
exactly as in the Rust struct. -/

structure Metadata where
  branch : Option String
  pr : Option Nat
  revision : Option Nat
  commit : Option String
  history : Option (List String)
  pr_url : Option String
deriving DecidableEq, Repr

/-- `Metadata::default()`: every field absent. -/
def emptyMetadata : Metadata := ⟨none, none, none, none, none, none⟩

/-! ### Commit and stack construction (`commit.rs`, `stack.rs`)

A `RepoCommit` is the repository-side view of one walked commit as
`Commit::new` consumes it: its id, the ids of all of its parents
(`commit.parent_id(i)`), the optional UTF-8 summary and body
(`None` models a non-UTF-8 summary / absent body), and the result of
`Metadata::new(repo, &commit)` for it (note lookup plus TOML parse,
modelled by its outcome). -/

structure RepoCommit where
  id : String
  parents : List String
  summary : Option String
  body : Option String
  metadataResult : Except String Metadata

/-- The engine-side commit record built by `Commit::new`. -/
structure Commit where
  metadata : Metadata
  title : String
  body : String
  id : String
  parent : String
deriving DecidableEq, Repr

/-- `Commit::new` (`commit.rs:16-25`): takes `parent_id(0)` — failing only
when the commit has no parent at all — then loads metadata, then the
summary; the body falls back to the literal `"body not utf8"`. -/
def Commit.new (rc : RepoCommit) : Except String Commit :=
  match rc.parents.head? with
  | none => Except.error "get parent"
  | some parent =>
    match rc.metadataResult with
    | Except.error e => Except.error e
    | Except.ok metadata =>
      match rc.summary with
      | none => Except.error "summary not utf8"
      | some title =>
        Except.ok { metadata := metadata, title := title,
                    body := rc.body.getD "body not utf8",
                    id := rc.id, parent := parent }

/-- `Stack::new`'s `walk.map(Commit::new).collect::<Result<_>>()`
(`stack.rs:56-63`): builds every commit of the walked range, stopping at
the first error. -/
def collectCommits : List RepoCommit → Except String (List Commit)
  | [] => Except.ok []
  | rc :: rest =>
    match Commit.new rc with
    | Except.error e => Except.error e
    | Except.ok c =>
      match collectCommits rest with
      | Except.error e => Except.error e
      | Except.ok cs => Except.ok (c :: cs)

/-! ### Footer splice (`pr.rs`, also used at `submit.rs:224-226`)

`str::split(DELIM)` is modelled on `List Char` by `splitFirst`, which
finds the first occurrence of the delimiter and returns the segment
before it together with the remainder after it. -/

/-- The literal sentinel `[#]:fel` (`BODY_DELIM`). -/
def DELIM : List Char := "[#]:fel".data

/-- Split `s` at the first occurrence of `d`: `some (before, after)`
with `s = before ++ d ++ after` and no earlier occurrence, or `none`
when `d` does not occur in `s`. -/
def splitFirst (d : List Char) : List Char → Option (List Char × List Char)
  | [] => none
  | c :: rest =>
    if d.isPrefixOf (c :: rest) then some ([], (c :: rest).drop d.length)
    else
      match splitFirst d rest with
      | none => none
      | some (pre, post) => some (c :: pre, post)

/-- `join_footer` (`pr.rs:31-33`):
`format!("{}\n\n{BODY_DELIM}\n\n{}", body, footer)`. -/
def join_footer (body footer : String) : String :=
  body ++ "\n\n" ++ "[#]:fel" ++ "\n\n" ++ footer

/-- `split_footer` (`pr.rs:35-40`): the first `split` segment is the
body, the second (between the first and second delimiter occurrence,
or everything after a sole occurrence) is the footer; both default to
the empty string. -/
def split_footer (full : String) : String × String :=
  match splitFirst DELIM full.data with
  | none => (full, "")
  | some (body, rest) =>
    match splitFirst DELIM rest with
    | none => (String.mk body, String.mk rest)
    | some (f, _) => (String.mk body, String.mk f)

/-- The segment of `s` before its first delimiter occurrence (`s` itself
when the delimiter does not occur): `full.split(BODY_DELIM).next()`. -/
def firstSegmentData (s : List Char) : List Char :=
  match splitFirst DELIM s with
  | none => s
  | some (pre, _) => pre

/-- String version of `firstSegmentData`
(`original_body.split(BODY_DELIM).next().unwrap_or_default()`,
`submit.rs:224`). -/
def firstSegmentStr (s : String) : String :=
  String.mk (firstSegmentData s.data)

/-! ### Review-request client (`pr.rs`)

Forge HTTP traffic is modelled by the request value sent.  An octocrab
`update` builder carries only the fields the caller set, hence the
`Option` fields of `ForgeCall.update`. -/

/-- `NewPr` (`pr.rs:16-21`). -/
structure NewPr where
  title : String
  body : String
  base : String
  branch : String
deriving DecidableEq, Repr

/-- One forge pull-request operation as issued on the wire. -/
inductive ForgeCall where
  | get (pr : Nat)
  | create (title : String) (branch : String) (base : String) (body : String)
  | update (pr : Nat) (title : Option String) (base : Option String)
      (body : Option String)
deriving DecidableEq, Repr

/-- `PR::replace` (`pr.rs:73-84`): one `update` that sets title, base and
`body = join_footer(data.body, footer)`. -/
def replaceCall (pr : Nat) (footer : String) (data : NewPr) : ForgeCall :=
  ForgeCall.update pr (some data.title) (some data.base)
    (some (join_footer data.body footer))

/-! ### Refspec and batched pusher (`push.rs`) -/

/-- `Refspec` (`push.rs:14-19`): commit hex, branch name, force flag. -/
structure Refspec where
  commit : String
  branch : String
  force : Bool
deriving DecidableEq, Repr

/-- `Refspec::new` (`push.rs:33-41`):
`branch.strip_prefix('/').unwrap_or(&branch)` removes one leading `/`. -/
def Refspec.new (commit branch : String) (force : Bool) : Refspec :=
  { commit := commit,
    branch := if branch.data.head? = some '/' then String.mk branch.data.tail
              else branch,
    force := force }

/-- `PathBuf::from(base).join(p)` on Unix: an absolute `p` replaces the
base entirely, otherwise the two are joined with a separator. -/
def pathJoin (base p : String) : String :=
  if p.data.head? = some '/' then p else base ++ "/" ++ p

/-- `Refspec::refname` (`push.rs:43-48`):
`PathBuf::from("refs/heads").join(&self.branch)`. -/
def Refspec.refname (r : Refspec) : String :=
  pathJoin "refs/heads" r.branch

/-- `Refspec::to_string` (`push.rs:21-31`):
`"{force}{commit}:{refname}"` with `+` exactly when `force`. -/
def Refspec.toString (r : Refspec) : String :=
  (if r.force then "+" else "") ++ r.commit ++ ":" ++ r.refname

/-- `PushError` / the value a `push` caller resolves with:
`Ok(())`, `Err(Rejected(msg))` or `Err(Cancelled)`. -/
inductive PushResult where
  | ok
  | rejected (msg : String)
  | cancelled
deriving DecidableEq, Repr

/-- Per-ref outcome mapping of the `push_update_reference` callback
(`push.rs:149-151`): an empty status (`None`) is acceptance, a status
message is a rejection. -/
def statusResult : Option String → PushResult
  | none => PushResult.ok
  | some msg => PushResult.rejected msg

/-- `wait_for`'s refspec-string batch (`push.rs:109-112`): one string per
drained pending push, in queue order. -/
def buildRefspecs (pending : List Refspec) : List String :=
  pending.map Refspec.toString

/-- The `refname → reply channel` map of `wait_for` (`push.rs:110-114`),
with reply channels identified by the position of their pending push in
the drained queue.  `HashMap::insert` overwrites, so a later pending
push with the same refname displaces (drops) the earlier channel. -/
def insertInfo : Nat → List Refspec → (String → Option Nat) → (String → Option Nat)
  | _, [], m => m
  | i, r :: rest, m =>
    insertInfo (i + 1) rest (fun key => if key = r.refname then some i else m key)

/-- The channel map built for a drained batch. -/
def infoMap (pending : List Refspec) : String → Option Nat :=
  insertInfo 0 pending (fun _ => none)

/-- The `push_update_reference` callback loop (`push.rs:140-155`): each
transport event `(refname, status)` removes the refname's channel from
the map — if still present — and sends it the status outcome; events
for unknown refnames are ignored. -/
def dispatch : (String → Option Nat) → (Nat → Option PushResult) →
    List (String × Option String) → (String → Option Nat) × (Nat → Option PushResult)
  | m, acc, [] => (m, acc)
  | m, acc, (r, status) :: rest =>
    match m r with
    | none => dispatch m acc rest
    | some i =>
      dispatch (fun key => if key = r then none else m key)
        (fun j => if j = i then some (statusResult status) else acc j) rest

/-- What the caller of pending push `i` resolves with after the batch:
the outcome its channel was sent, or `Cancelled` when the channel was
dropped without one (`rx.await.unwrap_or(Err(Cancelled))`,
`push.rs:85`). -/
def waitForResults (pending : List Refspec) (events : List (String × Option String))
    (i : Nat) : PushResult :=
  ((dispatch (infoMap pending) (fun _ => none) events).2 i).getD PushResult.cancelled

/-- Spec-side: the index of the last pending push whose refname is
`key`, i.e. the channel that survives map construction. -/
def lastIdx (pending : List Refspec) (key : String) : Option Nat :=
  match pending with
  | [] => none
  | r :: rest =>
    match lastIdx rest key with
    | some d => some (d + 1)
    | none => if key = r.refname then some 0 else none

/-- Spec-side: the first transport event for refname `key`. -/
def firstEvent (events : List (String × Option String)) (key : String) :
    Option (Option String) :=
  (events.find? (fun e => e.1 = key)).map (fun e => e.2)

/-! ### Submission engine (`submit.rs`) -/

/-- The `[submit]` configuration table (`config.rs:12-28`). -/
structure SubmitConfig where
  branch_prefix : Option String
  use_indexed_branches : Bool
  auto_create_branches : Bool
  authoritative_commits : Bool
deriving DecidableEq, Repr

/-- The engine state assembled by `Submit::new` (`submit.rs:262-285`):
only `use_indexed_branches` and `branch_prefix` are taken from the
configuration. -/
structure Submit where
  use_indexed_branches : Bool
  branch_prefix : Option String
  stack_name : String
  stack_upstream : String
deriving DecidableEq, Repr

/-- `Submit::new` (`submit.rs:262-285`). -/
def Submit.new (stackName stackUpstream : String) (config : SubmitConfig) : Submit :=
  { use_indexed_branches := config.use_indexed_branches,
    branch_prefix := config.branch_prefix,
    stack_name := stackName,
    stack_upstream := stackUpstream }

/-- Branch-name choice of `submit_commit` (`submit.rs:132-146`): reuse
`metadata.branch` when present, otherwise generate
`fel/<stack>/<index>` or `fel/<stack>/<4-hex>`, optionally prefixed. -/
def branchName (s : Submit) (c : Commit) (index : Nat) : String :=
  match c.metadata.branch with
  | some b => b
  | none =>
    let bn := if s.use_indexed_branches
      then "fel/" ++ s.stack_name ++ "/" ++ toString index
      else "fel/" ++ s.stack_name ++ "/" ++ (c.id.take 4)
    match s.branch_prefix with
    | some p => p ++ "/" ++ bn
    | none => bn

/-- `let force_push = commit.metadata.branch.is_some()` (`submit.rs:133`). -/
def forcePush (c : Commit) : Bool := c.metadata.branch.isSome

/-- The `branch_names` registry (`submit.rs:343-352` with the task sends
at `submit.rs:155`): one entry per commit, inserted in stack order,
keyed by commit id; the value a reader eventually observes for a key is
that commit's chosen branch name (the channel is pre-populated with
`metadata.branch` — the same value `branchName` reuses — and receives
the pushed name via `send_replace`).  Later inserts on a duplicate key
overwrite. -/
def insertBranches (s : Submit) : Nat → List Commit → (String → Option String) →
    (String → Option String)
  | _, [], m => m
  | i, c :: rest, m =>
    insertBranches s (i + 1) rest
      (fun key => if key = c.id then some (branchName s c i) else m key)

/-- The fully populated `branch_names` map for a stack. -/
def branchNamesMap (s : Submit) (commits : List Commit) : String → Option String :=
  insertBranches s 0 commits (fun _ => none)

/-- Base-branch selection of `submit_commit` (`submit.rs:157-174`):
the stack upstream for index 0, otherwise the awaited `branch_names`
entry of the parent commit (`none` models the
`"parent commit unknown"` failure). -/
def submittedBase (s : Submit) (commits : List Commit) (index : Nat) (c : Commit) :
    Option String :=
  if index = 0 then some s.stack_upstream
  else branchNamesMap s commits c.parent

/-- The forge pull-request response fields `submit_commit` reads. -/
structure PrResponse where
  number : Nat
  title : Option String
  body : Option String
  html_url : Option String
deriving DecidableEq, Repr

/-- The forge calls issued by one `submit_commit` task
(`submit.rs:176-235`): fetch the PR recorded in metadata — or create
one — then a footer update carrying base and body but never a title.
`s` is the engine state; no field of it is consulted here, mirroring
the source, which never reads `authoritative_commits`. -/
def forgeCalls (_s : Submit) (c : Commit) (branch base : String)
    (pr : PrResponse) (footer : String) : List ForgeCall :=
  let first :=
    match c.metadata.pr with
    | some n => ForgeCall.get n
    | none => ForgeCall.create c.title branch base c.body
  let original_body := firstSegmentStr (pr.body.getD "")
  let newBody := original_body ++ "\n\n" ++ "[#]:fel" ++ "\n\n" ++ footer
  [first, ForgeCall.update pr.number none (some base) (some newBody)]

/-- History update of `submit_commit` (`submit.rs:237-247`): append the
current id unless the stored `commit` already equals it. -/
def postHistory (c : Commit) : List String :=
  let h := c.metadata.history.getD []
  if some c.id = c.metadata.commit then h else h ++ [c.id]

/-- The metadata returned by `submit_commit` (`submit.rs:250-257`):
`revision` is `stored.unwrap_or(0) + 1` unconditionally. -/
def postMetadata (c : Commit) (branch : String) (prNumber : Nat)
    (prUrl : Option String) : Metadata :=
  { pr := some prNumber,
    branch := some branch,
    revision := some (c.metadata.revision.getD 0 + 1),
    commit := some c.id,
    history := some (postHistory c),
    pr_url := some (prUrl.getD "") }

/-- `PrInfo` (`submit.rs:28-32`): the per-commit view the footer
template receives. -/
structure PrInfo where
  number : Nat
  title : String
deriving DecidableEq, Repr

/-- The collection loop of `render_footer` (`submit.rs:292-309`): walk
the stack's commit ids in order, look up each `pr_info` entry (failing
on a missing commit) and `prs.insert(0, info)` — i.e. prepend. -/
def collectPrs (infoMap : String → Option PrInfo) :
    List String → List PrInfo → Option (List PrInfo)
  | [], prs => some prs
  | id :: rest, prs =>
    match infoMap id with
    | none => none
    | some info => collectPrs infoMap rest (info :: prs)

/-- The `prs` list bound to the footer template context
(`context.insert("prs", &prs)`, `submit.rs:315`). -/
def renderFooterPrs (infoMap : String → Option PrInfo) (commits : List String) :
    Option (List PrInfo) :=
  collectPrs infoMap commits []

/-- The metadata-flush loop of `submit` (`submit.rs:431-437`): iterate
the collected task results; write the note of every `Ok` until the
first failure, whose error is returned.  Returns the notes written and
the overall error, if any. -/
def flushMetadata : List (Except String (String × Metadata)) →
    List (String × Metadata) × Option String
  | [] => ([], none)
  | Except.error e :: _ => ([], some e)
  | Except.ok (id, m) :: rest =>
    let r := flushMetadata rest
    ((id, m) :: r.1, r.2)

/-- Spec-side: the successful results preceding the first failure. -/
def okPrefixResults : List (Except String (String × Metadata)) →
    List (String × Metadata)
  | [] => []
  | Except.error _ :: _ => []
  | Except.ok x :: rest => x :: okPrefixResults rest

/-- Spec-side: the first failure among the collected results. -/
def firstFailure : List (Except String (String × Metadata)) → Option String
  | [] => none
  | Except.error e :: _ => some e
  | Except.ok _ :: rest => firstFailure rest

/-! ### Concrete inputs used by the theorems below -/

/-- A drained batch of two pending pushes with distinct branch names. -/
def pendEx : List Refspec :=
  [Refspec.new "aaaa" "x" false, Refspec.new "bbbb" "y" true]

/-- Transport events for `pendEx`: `y` rejected, `x` accepted. -/
def evsEx : List (String × Option String) :=
  [("refs/heads/y", some "non-fast-forward"), ("refs/heads/x", none)]

/-- A drained batch of two pending pushes with the same branch name. -/
def pendDup : List Refspec :=
  [Refspec.new "aaaa" "shared" false, Refspec.new "bbbb" "shared" true]

/-- A commit whose stored metadata already records its own hash, as left
behind by a completed first submission. -/
def cStored : Commit :=
  { metadata := { branch := some "b", pr := some 1, revision := some 1,
                  commit := some "aaaa", history := some ["aaaa"],
                  pr_url := some "u" },
    title := "t", body := "", id := "aaaa", parent := "pppp" }

/-- A walked commit with two parents: a merge commit. -/
def mergeRepoCommit : RepoCommit :=
  { id := "mmmm", parents := ["p1p1", "p2p2"], summary := some "merge",
    body := some "", metadataResult := Except.ok emptyMetadata }

/-! ## Theorems -/

/-- Claim C1 (counterexample): with a successful result collected before a
failed one, the orchestrator returns the failure but still writes the
successful result's metadata note — the flush phase is not skipped
entirely. -/
theorem flush_midway_write_cx :
    (flushMetadata [Except.ok ("aaaa", emptyMetadata), Except.error "boom"]).2
        = some "boom" ∧
    (flushMetadata [Except.ok ("aaaa", emptyMetadata), Except.error "boom"]).1
        = [("aaaa", emptyMetadata)] ∧
    (flushMetadata [Except.ok ("aaaa", emptyMetadata), Except.error "boom"]).1
        ≠ [] := by
  refine ⟨rfl, rfl, by decide⟩

/-- Claim C1 (amended): the metadata-flush loop writes exactly the notes of
the successful results preceding the first failure in the collected order
and returns that first failure (no failure: all notes written, no error). -/
theorem flush_characterization (results : List (Except String (String × Metadata))) :
    flushMetadata results = (okPrefixResults results, firstFailure results) := by
  induction results with
  | nil => rfl
  | cons r rest ih =>
    cases r with
    | error e => rfl
    | ok x =>
      obtain ⟨id, m⟩ := x
      simp [flushMetadata, okPrefixResults, firstFailure, ih]

/-- Claim C2: `Commit::new` accepts a commit with two parents — it takes
`parent_id(0)` and succeeds — so stack construction does not fail on a
merge commit, contrary to the claimed `parent_count ≠ 1` rejection. -/
theorem merge_commit_accepted :
    Commit.new mergeRepoCommit
      = Except.ok { metadata := emptyMetadata, title := "merge", body := "",
                    id := "mmmm", parent := "p1p1" } ∧
    (collectCommits [mergeRepoCommit]).isOk = true := by
  exact ⟨rfl, rfl⟩

/-- Claim C4 (counterexample): re-running `submit_commit` on a commit whose
stored metadata already records its own hash produces metadata that differs
from the stored one — `revision` is incremented unconditionally. -/
theorem second_submit_not_identical_cx :
    postMetadata cStored "b" 1 (some "u") ≠ cStored.metadata ∧
    (postMetadata cStored "b" 1 (some "u")).revision = some 2 ∧
    cStored.metadata.revision = some 1 := by
  refine ⟨by decide, rfl, rfl⟩

/-- Claim C4 (amended): on a second run over an unchanged commit (stored
`commit` equals the current id), the branch name is reused, the push is
forced, and the recomputed metadata agrees with the stored metadata on
every field except `revision`, which is incremented unconditionally. -/
theorem second_submit_metadata (cfg : Submit) (c : Commit) (i : Nat)
    (n r : Nat) (b u : String) (hist : List String)
    (hmeta : c.metadata
      = { branch := some b, pr := some n, revision := some r,
          commit := some c.id, history := some hist, pr_url := some u }) :
    branchName cfg c i = b ∧ forcePush c = true ∧
    postMetadata c (branchName cfg c i) n (some u)
      = { c.metadata with revision := some (r + 1) } := by
  refine ⟨?_, ?_, ?_⟩
  · simp [branchName, hmeta]
  · simp [forcePush, hmeta]
  · simp [branchName, postMetadata, postHistory, hmeta]

/-- Claim C4 witness for `second_submit_metadata` at a concrete stored
commit. -/
theorem second_submit_metadata_witness :
    branchName { use_indexed_branches := false, branch_prefix := none,
                 stack_name := "feature", stack_upstream := "main" } cStored 0 = "b" ∧
    forcePush cStored = true ∧
    postMetadata cStored
        (branchName { use_indexed_branches := false, branch_prefix := none,
                      stack_name := "feature", stack_upstream := "main" } cStored 0)
        1 (some "u")
      = { cStored.metadata with revision := some (1 + 1) } :=
  second_submit_metadata _ cStored 0 1 1 "b" "u" ["aaaa"] rfl

/-- Claim C5: the per-commit task ignores `authoritative_commits`
completely: for a commit with `metadata.pr = Some 5` it issues a plain
`get` followed by a title-less footer update, never the `replace`
(title/base/body) update, whatever the flag's value; `PR::replace` would
have set the title. -/
theorem authoritative_flag_ignored :
    ∀ auth : Bool,
      forgeCalls
          (Submit.new "feature" "main"
            { branch_prefix := none, use_indexed_branches := false,
              auto_create_branches := false, authoritative_commits := auth })
          { metadata := { branch := some "br", pr := some 5, revision := some 1,
                          commit := some "aaaa", history := some ["aaaa"],
                          pr_url := some "u" },
            title := "t", body := "B", id := "aaaa", parent := "pppp" }
          "br" "main"
          { number := 5, title := some "old title", body := some "old body",
            html_url := some "u" }
          "FOOT"
        = [ForgeCall.get 5,
           ForgeCall.update 5 none (some "main") (some "old body\n\n[#]:fel\n\nFOOT")] ∧
      replaceCall 5 "FOOT" { title := "t", body := "B", base := "main", branch := "br" }
        = ForgeCall.update 5 (some "t") (some "main") (some "B\n\n[#]:fel\n\nFOOT") := by
  intro auth
  exact ⟨rfl, rfl⟩

/-- Claim C9 (helper): the collection loop of `render_footer` prepends each
commit's info, so it accumulates the reverse of the traversal order. -/
theorem collectPrs_reverse (m : String → Option PrInfo) (f : String → PrInfo) :
    ∀ (commits : List String) (acc : List PrInfo),
      (∀ id ∈ commits, m id = some (f id)) →
      collectPrs m commits acc = some ((commits.map f).reverse ++ acc) := by
  intro commits
  induction commits with
  | nil => intro acc _; rfl
  | cons id rest ih =>
    intro acc h
    have hid : m id = some (f id) := h id (List.mem_cons_self _ _)
    have hrest : ∀ x ∈ rest, m x = some (f x) :=
      fun x hx => h x (List.mem_cons_of_mem _ hx)
    simp [collectPrs, hid, ih (f id :: acc) hrest]

/-- Claim C9 (amended): the `prs` list bound to the footer template is the
reverse of the stack order — newest (head) first, bottom last. -/
theorem render_footer_reversed (m : String → Option PrInfo) (f : String → PrInfo)
    (commits : List String) (h : ∀ id ∈ commits, m id = some (f id)) :
    renderFooterPrs m commits = some (commits.map f).reverse := by
  have := collectPrs_reverse m f commits [] h
  simpa [renderFooterPrs] using this

/-- Claim C9 witness for `render_footer_reversed` on a two-commit stack. -/
theorem render_footer_reversed_witness :
    renderFooterPrs
        (fun id => if id = "aaaa" then some { number := 1, title := "A" }
                   else some { number := 2, title := "B" })
        ["aaaa", "bbbb"]
      = some ((["aaaa", "bbbb"].map
          (fun id => if id = "aaaa" then { number := 1, title := "A" }
                     else { number := 2, title := "B" })).reverse) :=
  render_footer_reversed _ _ _ (by
    intro id hid
    by_cases h : id = "aaaa" <;> simp [h])

/-- Claim C9 (counterexample): for the two-commit stack `["aaaa", "bbbb"]`
the list bound to the template is `[#2, #1]`, not the stack order
`[#1, #2]`. -/
theorem footer_order_cx :
    renderFooterPrs
        (fun id => if id = "aaaa" then some { number := 1, title := "A" }
                   else if id = "bbbb" then some { number := 2, title := "B" }
                   else none)
        ["aaaa", "bbbb"]
      = some [{ number := 2, title := "B" }, { number := 1, title := "A" }] ∧
    renderFooterPrs
        (fun id => if id = "aaaa" then some { number := 1, title := "A" }
                   else if id = "bbbb" then some { number := 2, title := "B" }
                   else none)
        ["aaaa", "bbbb"]
      ≠ some [{ number := 1, title := "A" }, { number := 2, title := "B" }] := by
  refine ⟨by decide, by decide⟩

/-- Inserting the branch receivers of commits whose id never matches `key`
leaves the map unchanged at `key`. -/
theorem insertBranches_of_not_mem (s : Submit) :
    ∀ (commits : List Commit) (i : Nat) (m : String → Option String) (key : String),
      key ∉ commits.map Commit.id → insertBranches s i commits m key = m key := by
  intro commits
  induction commits with
  | nil => intro i m key _; rfl
  | cons c rest ih =>
    intro i m key hk
    rw [List.map_cons, List.mem_cons, not_or] at hk
    show insertBranches s (i + 1) rest
        (fun k => if k = c.id then some (branchName s c i) else m k) key = m key
    rw [ih (i + 1) _ key hk.2]
    simp [hk.1]

/-- With pairwise-distinct commit ids, the populated `branch_names` map
binds each commit's id to the branch name its own task publishes. -/
theorem insertBranches_get (s : Submit) :
    ∀ (commits : List Commit), (commits.map Commit.id).Nodup →
      ∀ (j : Nat) (hj : j < commits.length) (i : Nat) (m : String → Option String),
        insertBranches s i commits m ((commits.get ⟨j, hj⟩).id)
          = some (branchName s (commits.get ⟨j, hj⟩) (i + j)) := by
  intro commits
  induction commits with
  | nil => intro _ j hj; exact absurd hj (Nat.not_lt_zero j)
  | cons c rest ih =>
    intro hnd j hj i m
    rw [List.map_cons, List.nodup_cons] at hnd
    cases j with
    | zero =>
      show insertBranches s (i + 1) rest
          (fun k => if k = c.id then some (branchName s c i) else m k) c.id
        = some (branchName s c (i + 0))
      rw [insertBranches_of_not_mem s rest (i + 1) _ c.id hnd.1]
      simp
    | succ j2 =>
      have hj2 : j2 < rest.length := Nat.lt_of_succ_lt_succ hj
      show insertBranches s (i + 1) rest
          (fun k => if k = c.id then some (branchName s c i) else m k)
          ((rest.get ⟨j2, hj2⟩).id)
        = some (branchName s (rest.get ⟨j2, hj2⟩) (i + (j2 + 1)))
      rw [ih hnd.2 j2 hj2 (i + 1) _]
      have : i + 1 + j2 = i + (j2 + 1) := by omega
      rw [this]

/-- Claim C7: for every stack with distinct commit ids, the per-commit task
at index 0 selects the stack upstream as its base, and the task at index
`j+1` whose commit's parent is the commit at index `j` selects exactly the
branch name published by that parent's task. -/
theorem submit_base_selection (s : Submit) (commits : List Commit)
    (hnd : (commits.map Commit.id).Nodup) :
    (∀ c, submittedBase s commits 0 c = some s.stack_upstream) ∧
    (∀ (j : Nat) (hj1 : j + 1 < commits.length) (hj : j < commits.length),
      (commits.get ⟨j + 1, hj1⟩).parent = (commits.get ⟨j, hj⟩).id →
      submittedBase s commits (j + 1) (commits.get ⟨j + 1, hj1⟩)
        = some (branchName s (commits.get ⟨j, hj⟩) j)) := by
  constructor
  · intro c; rfl
  · intro j hj1 hj hpar
    unfold submittedBase
    rw [if_neg (Nat.succ_ne_zero j), hpar]
    unfold branchNamesMap
    rw [insertBranches_get s commits hnd j hj 0 _, Nat.zero_add]

/-- Claim C7 witness: a concrete two-commit stack where the child's base is
the parent's published branch name. -/
theorem submit_base_selection_witness :
    ((([{ metadata := emptyMetadata, title := "a", body := "", id := "aaaa",
          parent := "rrrr" },
        { metadata := emptyMetadata, title := "b", body := "", id := "bbbb",
          parent := "aaaa" }] : List Commit).map Commit.id).Nodup) ∧
    submittedBase
        { use_indexed_branches := true, branch_prefix := none,
          stack_name := "feature", stack_upstream := "main" }
        [{ metadata := emptyMetadata, title := "a", body := "", id := "aaaa",
           parent := "rrrr" },
         { metadata := emptyMetadata, title := "b", body := "", id := "bbbb",
           parent := "aaaa" }]
        1
        { metadata := emptyMetadata, title := "b", body := "", id := "bbbb",
          parent := "aaaa" }
      = some "fel/feature/0" := by
  refine ⟨by decide, ?_⟩
  have h := (submit_base_selection
      { use_indexed_branches := true, branch_prefix := none,
        stack_name := "feature", stack_upstream := "main" }
      [{ metadata := emptyMetadata, title := "a", body := "", id := "aaaa",
         parent := "rrrr" },
       { metadata := emptyMetadata, title := "b", body := "", id := "bbbb",
         parent := "aaaa" }]
      (by decide)).2 0 (by decide) (by decide) (by decide)
  simpa using h

/-- The channel map built by `wait_for` holds, for each refname, the index
of the last pending push with that refname (insertions overwrite). -/
theorem insertInfo_eq_lastIdx :
    ∀ (pending : List Refspec) (i : Nat) (m : String → Option Nat) (key : String),
      insertInfo i pending m key
        = match lastIdx pending key with
          | some d => some (i + d)
          | none => m key := by
  intro pending
  induction pending with
  | nil => intro i m key; rfl
  | cons r rest ih =>
    intro i m key
    show insertInfo (i + 1) rest
        (fun k => if k = r.refname then some i else m k) key = _
    rw [ih (i + 1) _ key]
    cases h : lastIdx rest key with
    | some d =>
      show some (i + 1 + d) = _
      have hstep : lastIdx (r :: rest) key = some (d + 1) := by
        simp [lastIdx, h]
      rw [hstep]
      show some (i + 1 + d) = some (i + (d + 1))
      congr 1
      omega
    | none =>
      have hstep : lastIdx (r :: rest) key
          = if key = r.refname then some 0 else none := by
        simp [lastIdx, h]
      rw [hstep]
      by_cases hk : key = r.refname
      · simp [hk]
      · simp [hk]

/-- When `lastIdx` reports no occurrence, no pending push has that
refname. -/
theorem lastIdx_none_spec :
    ∀ (pending : List Refspec) (key : String), lastIdx pending key = none →
      ∀ (e : Nat) (he : e < pending.length), (pending.get ⟨e, he⟩).refname ≠ key := by
  intro pending
  induction pending with
  | nil => intro key _ e he; exact absurd he (Nat.not_lt_zero e)
  | cons r rest ih =>
    intro key h e he
    have hsplit : lastIdx rest key = none ∧ key ≠ r.refname := by
      by_cases h1 : lastIdx rest key = none
      · refine ⟨h1, ?_⟩
        intro h2
        rw [lastIdx, h1] at h
        simp [h2] at h
      · cases h2 : lastIdx rest key with
        | none => exact absurd h2 h1
        | some d => rw [lastIdx, h2] at h; simp at h
    cases e with
    | zero =>
      intro hr
      exact hsplit.2 hr.symm
    | succ e2 =>
      exact ih key hsplit.1 e2 (Nat.lt_of_succ_lt_succ he)

/-- `lastIdx` reports the position of the last pending push with the given
refname: the entry there matches and nothing after it does. -/
theorem lastIdx_some_spec :
    ∀ (pending : List Refspec) (key : String) (d : Nat),
      lastIdx pending key = some d →
      ∃ hd : d < pending.length,
        (pending.get ⟨d, hd⟩).refname = key ∧
        ∀ (e : Nat) (he : e < pending.length), d < e →
          (pending.get ⟨e, he⟩).refname ≠ key := by
  intro pending
  induction pending with
  | nil => intro key d h; exact absurd h (by simp [lastIdx])
  | cons r rest ih =>
    intro key d h
    cases h2 : lastIdx rest key with
    | some d2 =>
      rw [lastIdx, h2] at h
      have hd : d = d2 + 1 := by simpa using h.symm
      subst hd
      obtain ⟨hlt, hmatch, hafter⟩ := ih key d2 h2
      refine ⟨Nat.succ_lt_succ hlt, hmatch, ?_⟩
      intro e he hgt
      cases e with
      | zero => exact absurd hgt (Nat.not_lt_zero _).elim
      | succ e2 =>
        exact hafter e2 (Nat.lt_of_succ_lt_succ he) (Nat.lt_of_succ_lt_succ hgt)
    | none =>
      rw [lastIdx, h2] at h
      by_cases hk : key = r.refname
      · rw [if_pos hk] at h
        have hd : d = 0 := by simpa using h.symm
        subst hd
        refine ⟨Nat.succ_pos _, hk.symm, ?_⟩
        intro e he hgt
        cases e with
        | zero => exact absurd hgt (Nat.lt_irrefl 0)
        | succ e2 =>
          exact lastIdx_none_spec rest key h2 e2 (Nat.lt_of_succ_lt_succ he)
      · rw [if_neg hk] at h
        exact absurd h (by simp)

/-- A caller whose channel is nowhere in the map never receives an
outcome: its slot in the result assignment is untouched. -/
theorem dispatch_stable :
    ∀ (events : List (String × Option String)) (m : String → Option Nat)
      (acc : Nat → Option PushResult) (i : Nat),
      (∀ key, m key ≠ some i) → (dispatch m acc events).2 i = acc i := by
  intro events
  induction events with
  | nil => intro m acc i _; rfl
  | cons ev rest ih =>
    intro m acc i hm
    obtain ⟨r, status⟩ := ev
    show (dispatch m acc ((r, status) :: rest)).2 i = acc i
    rw [dispatch]
    cases hmr : m r with
    | none => exact ih m acc i hm
    | some k =>
      have hk : k ≠ i := fun h => hm r (h ▸ hmr)
      rw [ih _ _ i ?hmap]
      · exact if_neg (Ne.symm hk)
      case hmap =>
        intro key
        by_cases hkey : key = r
        · simp [hkey]
        · simpa [hkey] using hm key

/-- The caller whose channel is in the map under refname `ri` — and under
no other key — receives the first transport event for `ri`, if any. -/
theorem dispatch_route :
    ∀ (events : List (String × Option String)) (m : String → Option Nat)
      (acc : Nat → Option PushResult) (i : Nat) (ri : String),
      m ri = some i → (∀ key, key ≠ ri → m key ≠ some i) → acc i = none →
      (dispatch m acc events).2 i
        = (events.find? (fun e => e.1 = ri)).map (fun e => statusResult e.2) := by
  intro events
  induction events with
  | nil => intro m acc i ri _ _ hacc; simpa using hacc
  | cons ev rest ih =>
    intro m acc i ri hri hothers hacc
    obtain ⟨r, status⟩ := ev
    show (dispatch m acc ((r, status) :: rest)).2 i = _
    rw [dispatch]
    by_cases hr : r = ri
    · subst hr
      rw [hri]
      have hfind : ((r, status) :: rest).find? (fun e => e.1 = r)
          = some (r, status) := by
        apply List.find?_cons_of_pos
        simp
      rw [hfind]
      have hmap : ∀ key, (fun k => if k = r then none else m k) key ≠ some i := by
        intro key
        by_cases hkey : key = r
        · simp [hkey]
        · simpa [hkey] using hothers key hkey
      rw [dispatch_stable rest _ _ i hmap]
      simp
    · have hfind : ((r, status) :: rest).find? (fun e => e.1 = ri)
          = rest.find? (fun e => e.1 = ri) := by
        apply List.find?_cons_of_neg
        simp [hr]
      rw [hfind]
      cases hmr : m r with
      | none => exact ih m acc i ri hri hothers hacc
      | some k =>
        have hk : k ≠ i := fun h => hothers r hr (h ▸ hmr)
        have hrir : ri ≠ r := fun h => hr h.symm
        apply ih
        · simp [hrir, hri]
        · intro key hkey
          by_cases hkr : key = r
          · simp [hkr]
          · simpa [hkr] using hothers key hkey
        · simp [Ne.symm hk, hacc]

/-- The channel map is plain `lastIdx`: starting from the empty map at
index 0, each refname is bound to the last pending push carrying it. -/
theorem infoMap_eq_lastIdx (pending : List Refspec) (key : String) :
    infoMap pending key = lastIdx pending key := by
  rw [infoMap, insertInfo_eq_lastIdx]
  cases h : lastIdx pending key with
  | some d => simp
  | none => rfl

/-- Claim C6: one batched transport invocation receives exactly one refspec
string per pending push, and each caller's resolution is fully determined:
the caller whose channel survived map construction (`lastIdx … = some i`)
receives the first transport event for its refname — acceptance `Ok`,
refusal `Rejected` — or `Cancelled` when no event arrives; a caller whose
channel was dropped resolves `Cancelled`. -/
theorem push_fanout (pending : List Refspec) (events : List (String × Option String)) :
    (buildRefspecs pending).length = pending.length ∧
    ∀ (i : Nat) (hi : i < pending.length),
      waitForResults pending events i
        = if lastIdx pending ((pending.get ⟨i, hi⟩).refname) = some i
          then match firstEvent events ((pending.get ⟨i, hi⟩).refname) with
               | some s => statusResult s
               | none => PushResult.cancelled
          else PushResult.cancelled := by
  constructor
  · simp [buildRefspecs]
  · intro i hi
    by_cases hlast : lastIdx pending ((pending.get ⟨i, hi⟩).refname) = some i
    · rw [if_pos hlast]
      have hri : infoMap pending ((pending.get ⟨i, hi⟩).refname) = some i := by
        rw [infoMap_eq_lastIdx, hlast]
      have hothers : ∀ key, key ≠ (pending.get ⟨i, hi⟩).refname →
          infoMap pending key ≠ some i := by
        intro key hkey hcontra
        rw [infoMap_eq_lastIdx] at hcontra
        obtain ⟨hd, hmatch, _⟩ := lastIdx_some_spec pending key i hcontra
        exact hkey hmatch.symm
      show ((dispatch (infoMap pending) (fun _ => none) events).2 i).getD
          PushResult.cancelled = _
      rw [dispatch_route events (infoMap pending) (fun _ => none) i
        ((pending.get ⟨i, hi⟩).refname) hri hothers rfl]
      simp only [firstEvent]
      cases hf : events.find? (fun e => e.1 = (pending.get ⟨i, hi⟩).refname) with
      | none => rfl
      | some e => rfl
    · rw [if_neg hlast]
      have hall : ∀ key, infoMap pending key ≠ some i := by
        intro key hcontra
        rw [infoMap_eq_lastIdx] at hcontra
        obtain ⟨hd, hmatch, _⟩ := lastIdx_some_spec pending key i hcontra
        rw [← hmatch] at hcontra
        exact hlast hcontra
      show ((dispatch (infoMap pending) (fun _ => none) events).2 i).getD
          PushResult.cancelled = _
      rw [dispatch_stable events _ _ i hall]
      rfl

/-- Claim C6 witness for `push_fanout`: in a concrete two-push batch with
distinct refnames, caller 0 resolves with the acceptance reported for its
refname. -/
theorem push_fanout_witness :
    (0 : Nat) < pendEx.length ∧ waitForResults pendEx evsEx 0 = PushResult.ok := by
  refine ⟨by decide, ?_⟩
  have h := (push_fanout pendEx evsEx).2 0 (by decide)
  rw [h]
  decide

/-- Claim C10: when two pending pushes of one batch share a refname, the
channel map keeps only the later caller's channel, so every earlier caller
with that refname resolves `Cancelled`; hence for any two distinct callers
with equal refnames at most one receives the transport outcome. -/
theorem push_duplicate_refname (pending : List Refspec)
    (events : List (String × Option String)) :
    (∀ (i j : Nat) (hi : i < pending.length) (hj : j < pending.length),
      i < j →
      (pending.get ⟨i, hi⟩).refname = (pending.get ⟨j, hj⟩).refname →
      waitForResults pending events i = PushResult.cancelled) ∧
    (∀ (i j : Nat) (hi : i < pending.length) (hj : j < pending.length),
      i ≠ j →
      (pending.get ⟨i, hi⟩).refname = (pending.get ⟨j, hj⟩).refname →
      waitForResults pending events i = PushResult.cancelled ∨
      waitForResults pending events j = PushResult.cancelled) := by
  have main : ∀ (i j : Nat) (hi : i < pending.length) (hj : j < pending.length),
      i < j →
      (pending.get ⟨i, hi⟩).refname = (pending.get ⟨j, hj⟩).refname →
      waitForResults pending events i = PushResult.cancelled := by
    intro i j hi hj hij hrefeq
    have hall : ∀ key, infoMap pending key ≠ some i := by
      intro key hcontra
      rw [infoMap_eq_lastIdx] at hcontra
      obtain ⟨hd, hmatch, hafter⟩ := lastIdx_some_spec pending key i hcontra
      apply hafter j hj hij
      rw [← hrefeq]
      exact hmatch
    show ((dispatch (infoMap pending) (fun _ => none) events).2 i).getD
        PushResult.cancelled = _
    rw [dispatch_stable events _ _ i hall]
    rfl
  refine ⟨main, ?_⟩
  intro i j hi hj hne heq
  rcases Nat.lt_or_ge i j with h | h
  · exact Or.inl (main i j hi hj h heq)
  · have hji : j < i := Nat.lt_of_le_of_ne h (fun hh => hne hh.symm)
    exact Or.inr (main j i hj hi hji heq.symm)

/-- Claim C10 witness for `push_duplicate_refname`: with two pending pushes
to the same branch, the displaced first caller resolves `Cancelled`. -/
theorem push_duplicate_refname_witness :
    waitForResults pendDup [] 0 = PushResult.cancelled :=
  (push_duplicate_refname pendDup []).1 0 1 (by decide) (by decide) (by decide)
    (by decide)

/-- Claim C8 (counterexample): for branch `"//x/y"`, construction strips
only one `/` — the canonicalized branch still begins with `/` — and
serialization then drops the whole `refs/heads` prefix, because joining an
absolute path replaces the base. -/
theorem refspec_double_slash_cx :
    (Refspec.new "cccc" "//x/y" false).branch = "/x/y" ∧
    (Refspec.new "cccc" "//x/y" false).branch.data.head? = some '/' ∧
    Refspec.toString (Refspec.new "cccc" "//x/y" false) = "cccc:/x/y" := by
  refine ⟨by decide, by decide, by decide⟩

/-- Claim C8 (amended): construction strips at most one leading `/`; for
every branch whose canonicalized form does not begin with `/`, the refspec
serializes to `<commit>:refs/heads/<branch>`, prefixed with `+` exactly
when `force` is set. -/
theorem refspec_serialization (c b : String) (force : Bool)
    (h : (Refspec.new c b force).branch.data.head? ≠ some '/') :
    Refspec.toString (Refspec.new c b force)
      = (if force then "+" else "") ++ c ++ ":"
          ++ ("refs/heads" ++ "/" ++ (Refspec.new c b force).branch) := by
  unfold Refspec.toString Refspec.refname pathJoin
  rw [if_neg h]
  rfl

/-- Claim C8 witness for `refspec_serialization` at the spec's own example
`branch = "/x/y"`, `force = false`. -/
theorem refspec_serialization_witness :
    Refspec.toString (Refspec.new "cccc" "/x/y" false) = "cccc:refs/heads/x/y" := by
  have h := refspec_serialization "cccc" "/x/y" false (by decide)
  rw [h]
  decide

/-- A list that is a prefix across an append boundary whose first appended
element it does not contain lies entirely within the left part. -/
theorem prefix_append_cons :
    ∀ (b d : List Char) (c : Char) (r : List Char),
      d <+: (b ++ c :: r) → c ∉ d → d <+: b := by
  intro b
  induction b with
  | nil =>
    intro d c r hp hc
    cases d with
    | nil => exact List.nil_prefix
    | cons y d2 =>
      rw [List.nil_append] at hp
      rcases List.cons_prefix_cons.mp hp with ⟨hy, _⟩
      subst hy
      exact absurd (List.mem_cons_self _ _) hc
  | cons x b2 ih =>
    intro d c r hp hc
    cases d with
    | nil => exact List.nil_prefix
    | cons y d2 =>
      rw [List.cons_append] at hp
      rcases List.cons_prefix_cons.mp hp with ⟨hy, h2⟩
      subst hy
      have hc2 : c ∉ d2 := fun hm => hc (List.mem_cons_of_mem _ hm)
      exact List.cons_prefix_cons.mpr ⟨rfl, ih d2 c r h2 hc2⟩

/-- A nonempty pattern avoiding `c` is no prefix of a list headed by `c`. -/
theorem not_prefix_of_head_not_mem (d : List Char) (c : Char) (s : List Char)
    (hd : d ≠ []) (hc : c ∉ d) : ¬ d <+: (c :: s) := by
  intro hp
  cases d with
  | nil => exact hd rfl
  | cons y d2 =>
    rcases List.cons_prefix_cons.mp hp with ⟨hy, _⟩
    subst hy
    exact hc (List.mem_cons_self _ _)

/-- `splitFirst` finds nothing when the pattern is not an infix. -/
theorem splitFirst_of_not_infix (d : List Char) :
    ∀ s : List Char, ¬ d <:+: s → splitFirst d s = none := by
  intro s
  induction s with
  | nil => intro _; rfl
  | cons c rest ih =>
    intro h
    have hnp : ¬ (d.isPrefixOf (c :: rest) = true) := by
      simp only [ List.isPrefixOf_iff_prefix]
      exact fun hp => h hp.isInfix
    simp only [splitFirst]
    rw [if_neg hnp, ih (fun hi => h (List.infix_cons hi))]

/-- `splitFirst` at an occurrence placed at the very head. -/
theorem splitFirst_at_head (d t : List Char) (hd : d ≠ []) :
    splitFirst d (d ++ t) = some ([], t) := by
  cases d with
  | nil => exact absurd rfl hd
  | cons c d2 =>
    have hp : (c :: d2).isPrefixOf (c :: (d2 ++ t)) = true := by
      simp only [ List.isPrefixOf_iff_prefix]
      exact List.prefix_append (c :: d2) t
    show splitFirst (c :: d2) ((c :: d2) ++ t) = some ([], t)
    rw [List.cons_append]
    simp only [splitFirst]
    rw [if_pos hp]
    rw [show (c :: d2).length = d2.length + 1 from rfl, List.drop_succ_cons,
      List.drop_left]

/-- `splitFirst` commutes with prepending a character that starts no
occurrence. -/
theorem splitFirst_cons_shift (d : List Char) (c : Char) (s : List Char)
    (h : ¬ d <+: (c :: s)) :
    splitFirst d (c :: s) = (splitFirst d s).map (fun p => (c :: p.1, p.2)) := by
  have hnp : ¬ (d.isPrefixOf (c :: s) = true) := by
    simp only [ List.isPrefixOf_iff_prefix]
    exact h
  simp only [splitFirst]
  rw [if_neg hnp]
  cases splitFirst d s with
  | none => rfl
  | some p =>
    obtain ⟨a, b2⟩ := p
    rfl

/-- The first occurrence of a newline-free delimiter in
`b ++ "\n\n" ++ d ++ t` with delimiter-free `b` is the explicit one. -/
theorem splitFirst_join (d : List Char) (hd : d ≠ []) (hnl : '\n' ∉ d) :
    ∀ (b t : List Char), ¬ d <:+: b →
      splitFirst d (b ++ ('\n' :: '\n' :: (d ++ t))) = some (b ++ ['\n', '\n'], t) := by
  intro b
  induction b with
  | nil =>
    intro t _
    rw [List.nil_append]
    rw [splitFirst_cons_shift d '\n' _ (not_prefix_of_head_not_mem d '\n' _ hd hnl)]
    rw [splitFirst_cons_shift d '\n' _ (not_prefix_of_head_not_mem d '\n' _ hd hnl)]
    rw [splitFirst_at_head d t hd]
    rfl
  | cons x b2 ih =>
    intro t hb
    rw [List.cons_append]
    have hx : ¬ d <+: (x :: (b2 ++ ('\n' :: '\n' :: (d ++ t)))) := by
      intro hp
      have hpre : d <+: (x :: b2) :=
        prefix_append_cons (x :: b2) d '\n' ('\n' :: (d ++ t)) hp hnl
      exact hb hpre.isInfix
    rw [splitFirst_cons_shift d x _ hx]
    rw [ih t (fun hi => hb (List.infix_cons hi))]
    rfl

/-- Dropping the two separator newlines ahead of the footer commutes with
`splitFirst` for a newline-free delimiter. -/
theorem splitFirst_sep (d : List Char) (hd : d ≠ []) (hnl : '\n' ∉ d)
    (f : List Char) :
    splitFirst d ('\n' :: '\n' :: f)
      = (splitFirst d f).map (fun p => ('\n' :: '\n' :: p.1, p.2)) := by
  rw [splitFirst_cons_shift d '\n' _ (not_prefix_of_head_not_mem d '\n' _ hd hnl)]
  rw [splitFirst_cons_shift d '\n' _ (not_prefix_of_head_not_mem d '\n' _ hd hnl)]
  cases splitFirst d f with
  | none => rfl
  | some p =>
    obtain ⟨a, b2⟩ := p
    rfl

/-- The character data of `join_footer`, reassociated around the splice. -/
theorem join_footer_data (B F : String) :
    (join_footer B F).data
      = B.data ++ '\n' :: '\n' :: (DELIM ++ ('\n' :: '\n' :: F.data)) := by
  show (B ++ "\n\n" ++ "[#]:fel" ++ "\n\n" ++ F).data = _
  rw [String.data_append, String.data_append, String.data_append,
    String.data_append]
  rw [show ("\n\n" : String).data = ['\n', '\n'] from rfl]
  rw [show ("[#]:fel" : String).data = DELIM from rfl]
  simp [List.append_assoc]

/-- Claim C3 (amended): for a body `B` free of the delimiter,
`split_footer (join_footer B F)` yields the body extended by the joined
`"\n\n"` separator and the footer prefixed by the other separator — the
separators are not stripped — with `F` truncated at its own first
delimiter occurrence, if any. -/
theorem split_join_footer (B F : String) (hB : ¬ DELIM <:+: B.data) :
    split_footer (join_footer B F) = (B ++ "\n\n", "\n\n" ++ firstSegmentStr F) := by
  have hd : DELIM ≠ [] := by decide
  have hnl : '\n' ∉ DELIM := by decide
  unfold split_footer
  rw [join_footer_data B F]
  rw [splitFirst_join DELIM hd hnl B.data ('\n' :: '\n' :: F.data) hB]
  show (match splitFirst DELIM ('\n' :: '\n' :: F.data) with
        | none => (String.mk (B.data ++ ['\n', '\n']), String.mk ('\n' :: '\n' :: F.data))
        | some (f, _) => (String.mk (B.data ++ ['\n', '\n']), String.mk f))
      = (B ++ "\n\n", "\n\n" ++ firstSegmentStr F)
  rw [splitFirst_sep DELIM hd hnl F.data]
  have h1 : String.mk (B.data ++ ['\n', '\n']) = B ++ "\n\n" := by
    apply String.ext
    rw [String.data_append]
  cases hFS : splitFirst DELIM F.data with
  | none =>
    show (String.mk (B.data ++ ['\n', '\n']), String.mk ('\n' :: '\n' :: F.data))
        = (B ++ "\n\n", "\n\n" ++ firstSegmentStr F)
    have h2 : String.mk ('\n' :: '\n' :: F.data) = "\n\n" ++ firstSegmentStr F := by
      apply String.ext
      rw [String.data_append]
      show '\n' :: '\n' :: F.data = ['\n', '\n'] ++ firstSegmentData F.data
      rw [firstSegmentData, hFS]
      rfl
    rw [h1, h2]
  | some p =>
    obtain ⟨pre, post⟩ := p
    show (String.mk (B.data ++ ['\n', '\n']), String.mk ('\n' :: '\n' :: pre))
        = (B ++ "\n\n", "\n\n" ++ firstSegmentStr F)
    have h2 : String.mk ('\n' :: '\n' :: pre) = "\n\n" ++ firstSegmentStr F := by
      apply String.ext
      rw [String.data_append]
      show '\n' :: '\n' :: pre = ['\n', '\n'] ++ firstSegmentData F.data
      rw [firstSegmentData, hFS]
      rfl
    rw [h1, h2]

/-- Claim C3 (counterexample): the round-trip is off by the joined
separators: `split_footer (join_footer "b" "f")` is
`("b\n\n", "\n\nf")`, not `("b", "f")`. -/
theorem split_join_footer_cx :
    split_footer (join_footer "b" "f") = ("b\n\n", "\n\nf") ∧
    split_footer (join_footer "b" "f") ≠ ("b", "f") := by
  refine ⟨by decide, by decide⟩

/-- Claim C3 witness for `split_join_footer` at `B = "b"`, `F = "f"`. -/
theorem split_join_footer_witness :
    (¬ DELIM <:+: ("b" : String).data) ∧
    split_footer (join_footer "b" "f")
      = ("b" ++ "\n\n", "\n\n" ++ firstSegmentStr "f") :=
  ⟨by decide, split_join_footer "b" "f" (by decide)⟩

end Fel
